import Mathlib

/-!
# Verification of `tools/autoware-interfaces/generate.py`

A shallow embedding of the documentation-site generator: the metadata
loader, the type-name helpers, the work-queue type resolver, the
dependency-graph computation, the table formatter and the clean-up step,
together with theorems settling the specified properties.

External collaborators (the YAML front-matter parser and the rosidl
schema parser) are modelled as explicit parameters: the front-matter
parser as a function from the block's lines to a key-value record, and
the schema corpus as an environment mapping qualified type names to
their parsed field lists.  Fallible operations return `Except String`,
an error modelling an uncaught Python exception.
-/

namespace Autoware

instance {ε α : Type} [DecidableEq ε] [DecidableEq α] : DecidableEq (Except ε α) := fun a b =>
  match a, b with
  | .ok a, .ok b =>
    match decEq a b with
    | isTrue h => isTrue (h ▸ rfl)
    | isFalse h => isFalse (fun he => h (Except.ok.inj he))
  | .error a, .error b =>
    match decEq a b with
    | isTrue h => isTrue (h ▸ rfl)
    | isFalse h => isFalse (fun he => h (Except.error.inj he))
  | .ok _, .error _ => isFalse (fun h => Except.noConfusion h)
  | .error _, .ok _ => isFalse (fun h => Except.noConfusion h)

/-- Python `str.split(sep)` over the character list: splits at every
occurrence of `sep`, keeping empty pieces (`"".split(sep) == [""]`). -/
def pySplitChars (sep : Char) : List Char → List (List Char)
  | [] => [[]]
  | c :: rest =>
    let r := pySplitChars sep rest
    if c = sep then [] :: r
    else (c :: r.headD []) :: r.tail

/-- Python `str.split(sep)` for a single-character separator. -/
def pySplit (sep : Char) (s : String) : List String :=
  (pySplitChars sep s.data).map String.mk

/-- `is_documentation_msg(name)`: the package prefix (`name.split("/")[0]`)
lies in the whitelisted pair of namespaces. -/
def is_documentation_msg (name : String) : Bool :=
  ["autoware_adapi_version_msgs", "autoware_adapi_v1_msgs"].contains
    ((pySplit '/' name).headD name)

/-- `strip_array_suffix(name)`: `name.split("[")[0]`. -/
def strip_array_suffix (name : String) : String :=
  (pySplit '[' name).headD name

/-- `normalize_msg_name(name)`: `parts[0]` when the `/`-split has a single
part, otherwise `parts[0] + "/msg/" + parts[1]`.  (The split never returns
`[]`, so the final catch-all branch is unreachable.) -/
def normalize_msg_name (name : String) : String :=
  match pySplit '/' name with
  | [p] => p
  | p0 :: p1 :: _ => p0 ++ "/msg/" ++ p1
  | [] => name

/-- A parsed front-matter record: the key-value mapping produced by the
external YAML parser (modelled as an association list). -/
abbrev Meta := List (String × String)

/-- `test_markdown_metadata(data, path)`: raise `KeyError("status in " + path)`
when the record lacks a `status` key, otherwise return the record. -/
def test_markdown_metadata (data : Meta) (path : String) : Except String Meta :=
  if (data.lookup "status").isNone then
    .error ("KeyError: status in " ++ path)
  else
    .ok data

/-- `lines.index("---", 1)`: index of the first occurrence of `v` at
position `start` or later; `none` models the `ValueError`. -/
def indexFrom (lines : List String) (start : Nat) (v : String) : Option Nat :=
  ((lines.drop start).indexOf? v).map (· + start)

/-- The lines strictly between the opening delimiter (line 0) and the
closing delimiter: `lines[1:lines.index("---", 1)]`. -/
def frontBlock (lines : List String) (i : Nat) : List String :=
  (lines.take i).drop 1

/-- `load_markdown_metadata(path)`, over the file's split lines and the
external YAML parser `parse`.  Returns `ok none` for a skipped file,
`ok (some data)` for a loaded record, `error` for a raised exception. -/
def load_markdown_metadata (parse : List String → Meta) (path : String)
    (lines : List String) : Except String (Option Meta) :=
  if 2 < lines.length ∧ lines.headD "" = "---" then
    match indexFrom lines 1 "---" with
    | none => .error ("ValueError: \x22---\x22 is not in list (" ++ path ++ ")")
    | some i => (test_markdown_metadata (parse (frontBlock lines i)) path).map some
  else
    .ok none

/-- The api-list generator reads each page's title from its front-matter
record: `page["title"]` (`none` models the `KeyError`). -/
def pageTitle (page : Meta) : Option String :=
  page.lookup "title"

/-- A concrete instance of the external front-matter parser used to
instantiate theorems: each line of the form `key:value` becomes one
key-value pair, other lines are ignored. -/
def simpleParse (lines : List String) : Meta :=
  lines.filterMap (fun l =>
    match pySplit ':' l with
    | [k, v] => some (k, v)
    | _ => none)

/-- Left-justified space padding, Python `"{:w}".format(s)` for a string
argument: pad with spaces up to width `w`, never truncate. -/
def padCell (w : Nat) (s : String) : String :=
  s ++ String.mk (List.replicate (w - s.length) ' ')

/-- `map(len, line)`. -/
def cellLens (line : List String) : List Nat :=
  line.map String.length

/-- The width accumulation of `tabulate`: start from the header lengths,
then for every data row take `map(max, zip(map(len, line), widths))`
(`zip` truncates to the shorter list, as in Python). -/
def tabWidths (data : List (List String)) (header : List String) : List Nat :=
  data.foldl (fun ws line => List.zipWith max (cellLens line) ws) (cellLens header)

/-- One formatted row: `("| " + " | ".join("{:w}" per width) + " |").format(*line)`. -/
def formatRow (widths : List Nat) (line : List String) : String :=
  "| " ++ String.intercalate " | " (List.zipWith padCell widths line) ++ " |"

/-- The separator row: `["-" * width for width in widths]`. -/
def borderRow (widths : List Nat) : List String :=
  widths.map (fun w => String.mk (List.replicate w '-'))

/-- `tabulate(data, header)`. -/
def tabulate (data : List (List String)) (header : List String) : String :=
  let widths := tabWidths data header
  String.intercalate "\n" ((header :: borderRow widths :: data).map (formatRow widths))

/-- The column width named by the specification: the maximum of the
header cell's length and all data cells' lengths in column `i`. -/
def colWidth (header : List String) (data : List (List String)) (i : Nat) : Nat :=
  max ((header.getD i "").length)
    ((data.map (fun l => (l.getD i "").length)).foldr max 0)

/-- A directory entry of the type-pages output root, as seen by
`base.iterdir()`: its name, whether it is a directory, and (for regular
files) its content. -/
structure FsEntry where
  name : String
  isDir : Bool
  content : String
deriving DecidableEq

/-- The clean-up loop: `for path in base.iterdir(): if path.is_dir():
shutil.rmtree(path)` — the entries remaining under the root afterwards. -/
def cleanupTypePages (entries : List FsEntry) : List FsEntry :=
  entries.filter (fun e => !e.isDir)

/-- Raw parsed field lists: (field name, field type) pairs in file order. -/
abbrev RawFields := List (String × String)

/-- The schema corpus seen through the external rosidl parser:
`msg name` is the parsed message file for a qualified name, `srv name`
the parsed (request, response) pair; `none` models a file the collaborator
cannot locate or parse (its exception aborts the run). -/
structure Env where
  msg : String → Option RawFields
  srv : String → Option (RawFields × RawFields)

/-- A stored field map: field name ↦ normalized type name. -/
abbrev Fields := List (String × String)

/-- A stored spec: `{"msg": fields}` or `{"req": .., "res": ..}` with
empty entries omitted. -/
abbrev Spec := List (String × Fields)

/-- The global `specs` table (a Python dict: ordered, distinct keys). -/
abbrev SpecTable := List (String × Spec)

/-- Python dict assignment `d[k] = v`: overwrite in place when the key
exists, otherwise append at the end. -/
def setKey (t : SpecTable) (k : String) (v : Spec) : SpecTable :=
  if (t.lookup k).isSome then t.map (fun e => if e.1 = k then (k, v) else e)
  else t ++ [(k, v)]

/-- `parse_rosidl_spec(depends, visited, spec)`: the field map to store
(field name ↦ normalized type name) paired with the names the loop adds
to `depends` (the stripped names not yet in `visited`). -/
def parse_rosidl_spec (visited : Finset String) (fields : RawFields) :
    Fields × List String :=
  let fs := fields.map (fun f => (f.1, normalize_msg_name f.2))
  (fs, (fs.map (fun f => strip_array_suffix f.2)).filter (fun n => decide (n ∉ visited)))

/-- The resolver's mutable state: the `depends` work queue, the `visited`
set and the `specs` table. -/
structure RState where
  depends : Finset String
  visited : Finset String
  specs : SpecTable
deriving DecidableEq

/-- `parse_rosidl_file(depends, visited, specs, name)`: mark `name`
visited; when it is a documentation type, unpack `pkg, ext, msg =
name.split("/")` (a `ValueError` unless exactly three parts), parse the
schema file of the matching kind, store the field maps with empty entries
omitted, and extend `depends` with the newly discovered names. -/
def parse_rosidl_file (env : Env) (st : RState) (name : String) :
    Except String RState :=
  let visited := insert name st.visited
  if is_documentation_msg name then
    match pySplit '/' name with
    | [_pkg, ext, _msg] =>
      if ext = "msg" then
        match env.msg name with
        | none => .error ("parse_message_file: " ++ name)
        | some fields =>
          let p := parse_rosidl_spec visited fields
          let spec := if p.1.isEmpty then [] else [("msg", p.1)]
          .ok ⟨st.depends ∪ p.2.toFinset, visited, setKey st.specs name spec⟩
      else if ext = "srv" then
        match env.srv name with
        | none => .error ("parse_service_file: " ++ name)
        | some rr =>
          let q := parse_rosidl_spec visited rr.1
          let r := parse_rosidl_spec visited rr.2
          let spec := (if q.1.isEmpty then [] else [("req", q.1)]) ++
                      (if r.1.isEmpty then [] else [("res", r.1)])
          .ok ⟨st.depends ∪ q.2.toFinset ∪ r.2.toFinset, visited,
               setKey st.specs name spec⟩
      else .ok ⟨st.depends, visited, st.specs⟩
    | _ => .error ("ValueError: unpack " ++ name)
  else .ok ⟨st.depends, visited, st.specs⟩

/-- One iteration of the `while depends:` loop: pop an arbitrary pending
name and process it. -/
def ResolveStep (env : Env) (st st' : RState) : Prop :=
  ∃ name ∈ st.depends,
    parse_rosidl_file env ⟨st.depends.erase name, st.visited, st.specs⟩ name = .ok st'

/-- Exactly `n` successful iterations of the resolver loop. -/
inductive StepsN (env : Env) : Nat → RState → RState → Prop
  | refl (st : RState) : StepsN env 0 st st
  | tail {n : Nat} {st₁ st₂ st₃ : RState} :
      StepsN env n st₁ st₂ → ResolveStep env st₂ st₃ → StepsN env (n + 1) st₁ st₃

/-- Any number of successful iterations. -/
def Resolves (env : Env) (st st' : RState) : Prop :=
  ∃ n, StepsN env n st st'

/-- The state at loop entry: `specs = {}`, `visited = set()`,
`depends = set(names)`. -/
def initState (seeds : Finset String) : RState :=
  ⟨seeds, ∅, []⟩

/-- The stripped normalized field types of `name`'s schema: every name
that processing `name` can feed back into `depends`, as a pure function
of the corpus. -/
def pureDeps (env : Env) (name : String) : Finset String :=
  if is_documentation_msg name then
    match pySplit '/' name with
    | [_pkg, ext, _msg] =>
      if ext = "msg" then
        match env.msg name with
        | none => ∅
        | some fields =>
          (fields.map (fun f => strip_array_suffix (normalize_msg_name f.2))).toFinset
      else if ext = "srv" then
        match env.srv name with
        | none => ∅
        | some rr =>
          (rr.1.map (fun f => strip_array_suffix (normalize_msg_name f.2))).toFinset ∪
          (rr.2.map (fun f => strip_array_suffix (normalize_msg_name f.2))).toFinset
      else ∅
    | _ => ∅
  else ∅

/-- The spec entry the resolver stores for `name`, as a pure function of
the corpus: `some` exactly when processing `name` succeeds and stores an
entry. -/
def pureSpec (env : Env) (name : String) : Option Spec :=
  if is_documentation_msg name then
    match pySplit '/' name with
    | [_pkg, ext, _msg] =>
      if ext = "msg" then
        (env.msg name).map (fun fields =>
          let fs := fields.map (fun f => (f.1, normalize_msg_name f.2))
          if fs.isEmpty then [] else [("msg", fs)])
      else if ext = "srv" then
        (env.srv name).map (fun rr =>
          let q := rr.1.map (fun f => (f.1, normalize_msg_name f.2))
          let r := rr.2.map (fun f => (f.1, normalize_msg_name f.2))
          (if q.isEmpty then [] else [("req", q)]) ++
          (if r.isEmpty then [] else [("res", r)]))
      else none
    | _ => none
  else none

/-- The keys of an association-list table, in insertion order. -/
def keysOf (t : SpecTable) : List String :=
  t.map Prod.fst

/-- `yaml.dump` with its default sorted keys: the table's entries in
ascending key order, each key paired with its looked-up value. -/
def serializeSpecs (t : SpecTable) : List (String × Option Spec) :=
  ((keysOf t).toFinset.sort (· ≤ ·)).map (fun k => (k, t.lookup k))

/-- `type_uses` / `type_used`: a mapping from type name to a set of type
names. -/
abbrev GraphMap := List (String × Finset String)

/-- The set stored under a key (`∅` when absent). -/
def lookupSet (m : GraphMap) (k : String) : Finset String :=
  (m.lookup k).getD ∅

/-- `m[k].add(v)`: a `KeyError` when `k` is not a key. -/
def addToGraph (m : GraphMap) (k v : String) : Except String GraphMap :=
  if (m.lookup k).isSome then
    .ok (m.map (fun e => if e.1 = k then (e.1, insert v e.2) else e))
  else .error ("KeyError: " ++ k)

/-- The (user, raw field type) pairs the dependency loop iterates over:
`for user, spec in specs.items(): for field in spec.values(): for name in
field.values()`. -/
def graphEvents (specs : SpecTable) : List (String × String) :=
  specs.flatMap (fun p => p.2.flatMap (fun q => q.2.map (fun f => (p.1, f.2))))

/-- One inner iteration of the dependency loop: strip the array suffix,
test the documentation predicate, and record the edge in both graphs. -/
def graphStep (g : GraphMap × GraphMap) (ev : String × String) :
    Except String (GraphMap × GraphMap) :=
  let n := strip_array_suffix ev.2
  if is_documentation_msg n then do
    let uses ← addToGraph g.1 ev.1 n
    let used ← addToGraph g.2 n ev.1
    pure (uses, used)
  else pure g

/-- `{name: set() for name in specs}`. -/
def initGraph (specs : SpecTable) : GraphMap :=
  specs.map (fun p => (p.1, ∅))

/-- The dependency-graph computation over the resolved table: `type_uses`
first, `type_used` second. -/
def computeGraph (specs : SpecTable) : Except String (GraphMap × GraphMap) :=
  (graphEvents specs).foldlM graphStep (initGraph specs, initGraph specs)

/-- The resolver loop invariant: established at loop entry and preserved
by every successful iteration.  `seeds` is the initial `depends` set. -/
structure ResolverInv (env : Env) (seeds : Finset String) (st : RState) : Prop where
  seeds_sub : ∀ x ∈ seeds, x ∈ st.depends ∨ x ∈ st.visited
  dep_dis : ∀ x ∈ st.depends, x ∉ st.visited
  vis_closed : ∀ k ∈ st.visited, ∀ x ∈ pureDeps env k, x ∈ st.depends ∨ x ∈ st.visited
  keys_vis : ∀ k, (st.specs.lookup k).isSome ↔ (k ∈ st.visited ∧ pureSpec env k ≠ none)
  entries_pure : ∀ p ∈ st.specs, pureSpec env p.1 = some p.2
  vis_doc : ∀ k ∈ st.visited, is_documentation_msg k = true → pureSpec env k = none →
    ∃ pkg ext ms, pySplit '/' k = [pkg, ext, ms] ∧ ext ≠ "msg" ∧ ext ≠ "srv"

/-- A tiny concrete schema corpus: one documentation message with a
single primitive-typed field, used to instantiate the resolver
theorems. -/
def env0 : Env where
  msg n := if n = "autoware_adapi_v1_msgs/msg/A" then some [("x", "uint32")] else none
  srv _ := none

/-- The seed set of the concrete corpus: the one documented type. -/
def seeds0 : Finset String := {"autoware_adapi_v1_msgs/msg/A"}

/-- The resolver state after processing the seed of `seeds0`. -/
def stA : RState :=
  ⟨{"uint32"}, {"autoware_adapi_v1_msgs/msg/A"},
   [("autoware_adapi_v1_msgs/msg/A", [("msg", [("x", "uint32")])])]⟩

/-- The completed resolver state over `env0` and `seeds0`. -/
def stB : RState :=
  ⟨∅, {"uint32", "autoware_adapi_v1_msgs/msg/A"},
   [("autoware_adapi_v1_msgs/msg/A", [("msg", [("x", "uint32")])])]⟩

/-- A two-element seed set of non-documentation names, admitting two pop
orders. -/
def seeds1 : Finset String := {"uint32", "zzz"}

/-- The completed state over `seeds1` reached by popping `"uint32"`
first. -/
def stC1 : RState := ⟨∅, insert "zzz" (insert "uint32" ∅), []⟩

/-- The completed state over `seeds1` reached by popping `"zzz"` first. -/
def stC2 : RState := ⟨∅, insert "uint32" (insert "zzz" ∅), []⟩

/-- A finite universe bounding the names reachable from `seeds0` over
`env0`. -/
def univ0 : Finset String := {"autoware_adapi_v1_msgs/msg/A", "uint32"}

/-- The dependency graph of the concrete completed table `stB.specs`. -/
def gB0 : GraphMap × GraphMap :=
  ([("autoware_adapi_v1_msgs/msg/A", ∅)], [("autoware_adapi_v1_msgs/msg/A", ∅)])

end Autoware

namespace Autoware

/-! ## Metadata loader lemmas -/

@[simp] lemma exceptMap_ok {ε α β : Type} (f : α → β) (a : α) :
    Except.map f (Except.ok a : Except ε α) = .ok (f a) := rfl

@[simp] lemma exceptMap_error {ε α β : Type} (f : α → β) (e : ε) :
    Except.map f (Except.error e : Except ε α) = .error e := rfl

/-- On a qualifying file (first line the delimiter, a second delimiter at
index `i`), loading is the `status` test applied to the parsed block. -/
lemma load_markdown_metadata_qualifying (parse : List String → Meta)
    (path : String) (lines : List String) (i : Nat)
    (hq : 2 < lines.length ∧ lines.headD "" = "---")
    (hidx : indexFrom lines 1 "---" = some i) :
    load_markdown_metadata parse path lines
      = (test_markdown_metadata (parse (frontBlock lines i)) path).map some := by
  unfold load_markdown_metadata
  rw [if_pos hq, hidx]

/-- A successful load determines the qualifying shape of the file and the
returned record. -/
lemma load_markdown_metadata_ok_inv (parse : List String → Meta)
    (path : String) (lines : List String) (d : Meta)
    (h : load_markdown_metadata parse path lines = .ok (some d)) :
    (2 < lines.length ∧ lines.headD "" = "---") ∧
    ∃ i, indexFrom lines 1 "---" = some i ∧
      (parse (frontBlock lines i)).lookup "status" ≠ none ∧
      d = parse (frontBlock lines i) := by
  unfold load_markdown_metadata at h
  split at h
  next hq =>
    split at h
    next hidx => simp at h
    next i hidx =>
      unfold test_markdown_metadata at h
      split at h
      next hs => simp at h
      next hs =>
        simp only [exceptMap_ok, Except.ok.injEq, Option.some.injEq] at h
        exact ⟨hq, i, hidx, by simpa [Option.isNone_iff_eq_none] using hs, h.symm⟩
  next hq => simp at h

/-! ## C4: status key decides success of loading -/

/-- **C4**: for every front-matter block parsed from a qualifying markdown
file (first line the delimiter, a second delimiter at some index `i`, more
than two lines): if the parsed block has a `status` key, loading succeeds
and returns that record (which contains that status); if it lacks one,
loading raises the missing-field `KeyError` whose message names the
offending file path. -/
theorem markdown_status_key_decides_loading (parse : List String → Meta)
    (path : String) (lines : List String) (i : Nat)
    (hq : 2 < lines.length ∧ lines.headD "" = "---")
    (hidx : indexFrom lines 1 "---" = some i) :
    (∀ s, (parse (frontBlock lines i)).lookup "status" = some s →
      load_markdown_metadata parse path lines
        = .ok (some (parse (frontBlock lines i)))) ∧
    ((parse (frontBlock lines i)).lookup "status" = none →
      load_markdown_metadata parse path lines
        = .error ("KeyError: status in " ++ path)) := by
  rw [load_markdown_metadata_qualifying parse path lines i hq hidx]
  constructor
  · intro s hs
    simp [test_markdown_metadata, hs]
  · intro hs
    simp [test_markdown_metadata, hs]

/-- **C4** witness: a file whose block has `status` loads to its record; a
file whose block lacks `status` raises `KeyError: status in b.md`. -/
theorem markdown_status_key_decides_loading_witness :
    load_markdown_metadata simpleParse "a.md" ["---", "status:released", "---", ""]
      = .ok (some [("status", "released")]) ∧
    load_markdown_metadata simpleParse "b.md" ["---", "title:t", "---", ""]
      = .error ("KeyError: status in b.md") :=
  ⟨(markdown_status_key_decides_loading simpleParse "a.md"
      ["---", "status:released", "---", ""] 2 (by decide) (by decide)).1
      "released" (by decide),
   (markdown_status_key_decides_loading simpleParse "b.md"
      ["---", "title:t", "---", ""] 2 (by decide) (by decide)).2 (by decide)⟩

/-! ## C5: files without a complete delimiter block -/

/-- **C5** counterexample: the file `["---", "status: ok", "x"]` lacks a
complete delimiter block (no second `---`), yet loading does not silently
skip it: it raises a `ValueError` instead of producing `ok none`. -/
theorem incomplete_delimiter_block_raises :
    load_markdown_metadata (fun _ => [("status", "ok")]) "page.md"
        ["---", "status: ok", "x"] ≠ .ok none ∧
    load_markdown_metadata (fun _ => [("status", "ok")]) "page.md"
        ["---", "status: ok", "x"]
      = .error "ValueError: \x22---\x22 is not in list (page.md)" := by
  decide

/-- **C5** (amended): a markdown file that does not begin with the
delimiter as its first line (or has fewer than three lines) produces no
record and raises no error; but a file whose first line is the delimiter
with no second occurrence raises a `ValueError` instead of being
skipped. -/
theorem missing_delimiter_block_skips (parse : List String → Meta)
    (path : String) (lines : List String) :
    (¬(2 < lines.length ∧ lines.headD "" = "---") →
      load_markdown_metadata parse path lines = .ok none) ∧
    ((2 < lines.length ∧ lines.headD "" = "---") → "---" ∉ lines.drop 1 →
      load_markdown_metadata parse path lines
        = .error ("ValueError: \x22---\x22 is not in list (" ++ path ++ ")")) := by
  constructor
  · intro h
    unfold load_markdown_metadata
    rw [if_neg h]
  · intro hq hmem
    have hnone : (lines.drop 1).indexOf? "---" = none := by
      rw [List.indexOf?_eq_none_iff]
      intro x hx
      simp only [beq_iff_eq]
      exact fun hxe => hmem (hxe ▸ hx)
    have hidxn : indexFrom lines 1 "---" = none := by
      unfold indexFrom
      rw [hnone]
      rfl
    unfold load_markdown_metadata
    rw [if_pos hq, hidxn]

/-- **C5** witness: a file with no leading delimiter is skipped; a file
with an unclosed delimiter raises. -/
theorem missing_delimiter_block_skips_witness :
    load_markdown_metadata (fun _ => []) "w.md" ["# Title", "body", "text"]
      = .ok none ∧
    load_markdown_metadata (fun _ => []) "w.md" ["---", "a", "b"]
      = .error ("ValueError: \x22---\x22 is not in list (w.md)") :=
  ⟨(missing_delimiter_block_skips (fun _ => []) "w.md"
      ["# Title", "body", "text"]).1 (by decide),
   (missing_delimiter_block_skips (fun _ => []) "w.md" ["---", "a", "b"]).2
      (by decide) (by decide)⟩

/-! ## C6: normalization idempotence -/

/-- **C6** counterexample: normalization does not return the already-
qualified name `"a/msg/b"` unchanged (it yields `"a/msg/msg"`), and it is
not idempotent: applying it twice to `"a/b"` differs from applying it
once. -/
theorem normalize_msg_name_not_idempotent :
    normalize_msg_name "a/msg/b" ≠ "a/msg/b" ∧
    normalize_msg_name "a/msg/b" = "a/msg/msg" ∧
    normalize_msg_name (normalize_msg_name "a/b") ≠ normalize_msg_name "a/b" := by
  decide

/-- **C6** (amended): normalization returns a bare name (one whose
`/`-split is a single part) unchanged, and maps any name whose split has
two or more parts to `parts[0] ++ "/msg/" ++ parts[1]`; it is therefore
idempotent on bare names, but an already-qualified `package/kind/name`
is not a fixed point in general. -/
theorem normalize_msg_name_spec (x p0 p1 : String) (rest : List String) :
    (pySplit '/' x = [x] → normalize_msg_name x = x) ∧
    (pySplit '/' x = p0 :: p1 :: rest →
      normalize_msg_name x = p0 ++ "/msg/" ++ p1) := by
  constructor
  · intro h
    simp [normalize_msg_name, h]
  · intro h
    simp [normalize_msg_name, h]

/-- **C6** witness: the bare name `"bool"` is unchanged; `"a/b"` maps to
`"a/msg/b"`. -/
theorem normalize_msg_name_spec_witness :
    normalize_msg_name "bool" = "bool" ∧
    normalize_msg_name "a/b" = "a" ++ "/msg/" ++ "b" :=
  ⟨(normalize_msg_name_spec "bool" "" "" []).1 (by decide),
   (normalize_msg_name_spec "a/b" "a" "b" []).2 (by decide)⟩

/-! ## C9: where the page title comes from -/

/-- **C9** counterexample: with the file path held fixed at `"p.md"`, two
different front-matter blocks load to records with different titles — the
title used by the api-list generator is taken from the front-matter
content, not derived from the file's path. -/
theorem pageTitle_depends_on_front_matter :
    load_markdown_metadata simpleParse "p.md"
        ["---", "title:x", "status:ok", "---", ""]
      = .ok (some [("title", "x"), ("status", "ok")]) ∧
    load_markdown_metadata simpleParse "p.md"
        ["---", "title:y", "status:ok", "---", ""]
      = .ok (some [("title", "y"), ("status", "ok")]) ∧
    pageTitle [("title", "x"), ("status", "ok")]
      ≠ pageTitle [("title", "y"), ("status", "ok")] := by
  decide

/-- **C9** (amended): a loaded page's `title` is the `title` field of its
front-matter record; the record (hence the title) is a function of the
file's content only — loading the same lines under any other path yields
the identical record. -/
theorem pageTitle_from_front_matter (parse : List String → Meta)
    (path path' : String) (lines : List String) (d : Meta)
    (h : load_markdown_metadata parse path lines = .ok (some d)) :
    load_markdown_metadata parse path' lines = .ok (some d) ∧
    ∃ i, indexFrom lines 1 "---" = some i ∧ d = parse (frontBlock lines i) ∧
      pageTitle d = (parse (frontBlock lines i)).lookup "title" := by
  obtain ⟨hq, i, hidx, hs, hd⟩ := load_markdown_metadata_ok_inv parse path lines d h
  constructor
  · rw [load_markdown_metadata_qualifying parse path' lines i hq hidx]
    have : (parse (frontBlock lines i)).lookup "status" ≠ none := hs
    simp [test_markdown_metadata, Option.isNone_iff_eq_none, this, hd]
  · exact ⟨i, hidx, hd, by rw [hd]; rfl⟩

/-- **C9** witness: the record loaded from `"p.md"` is reproduced when the
same content is loaded from `"q.md"`. -/
theorem pageTitle_from_front_matter_witness :
    load_markdown_metadata simpleParse "q.md"
        ["---", "title:x", "status:ok", "---", ""]
      = .ok (some [("title", "x"), ("status", "ok")]) ∧
    ∃ i, indexFrom ["---", "title:x", "status:ok", "---", ""] 1 "---" = some i ∧
      [("title", "x"), ("status", "ok")]
        = simpleParse (frontBlock ["---", "title:x", "status:ok", "---", ""] i) ∧
      pageTitle [("title", "x"), ("status", "ok")]
        = (simpleParse (frontBlock ["---", "title:x", "status:ok", "---", ""] i)).lookup
            "title" :=
  pageTitle_from_front_matter simpleParse "p.md" "q.md"
    ["---", "title:x", "status:ok", "---", ""]
    [("title", "x"), ("status", "ok")] (by decide)

/-! ## Table formatter lemmas -/

lemma padCell_length (w : Nat) (s : String) :
    (padCell w s).length = max w s.length := by
  simp [padCell, String.length_append, String.length_mk]
  omega

lemma le_foldr_max {a : Nat} {xs : List Nat} (h : a ∈ xs) : a ≤ xs.foldr max 0 := by
  induction xs with
  | nil => cases h
  | cons x xs ih =>
    rcases List.mem_cons.mp h with h | h
    · subst h; exact le_max_left _ _
    · exact le_trans (ih h) (le_max_right _ _)

lemma getD_zipWith_max (xs ys : List Nat) (i : Nat) (h1 : i < xs.length)
    (h2 : i < ys.length) :
    (List.zipWith max xs ys).getD i 0 = max (xs.getD i 0) (ys.getD i 0) := by
  have hz : i < (List.zipWith max xs ys).length := by
    rw [List.length_zipWith]; exact lt_min h1 h2
  rw [List.getD_eq_getElem _ _ hz, List.getD_eq_getElem _ _ h1,
      List.getD_eq_getElem _ _ h2, List.getElem_zipWith]

lemma getD_cellLens (l : List String) (i : Nat) (h : i < l.length) :
    (cellLens l).getD i 0 = (l.getD i "").length := by
  have hm : i < (cellLens l).length := by simpa [cellLens] using h
  rw [List.getD_eq_getElem _ _ hm, List.getD_eq_getElem _ _ h]
  simp [cellLens]

lemma getD_borderRow (ws : List Nat) (i : Nat) (h : i < ws.length) :
    (borderRow ws).getD i "" = String.mk (List.replicate (ws.getD i 0) '-') := by
  have hm : i < (borderRow ws).length := by simpa [borderRow] using h
  rw [List.getD_eq_getElem _ _ hm, List.getD_eq_getElem _ _ h]
  simp [borderRow]

lemma getD_zipWith_padCell (ws : List Nat) (l : List String) (i : Nat)
    (h1 : i < ws.length) (h2 : i < l.length) :
    (List.zipWith padCell ws l).getD i "" = padCell (ws.getD i 0) (l.getD i "") := by
  have hz : i < (List.zipWith padCell ws l).length := by
    rw [List.length_zipWith]; exact lt_min h1 h2
  rw [List.getD_eq_getElem _ _ hz, List.getD_eq_getElem _ _ h1,
      List.getD_eq_getElem _ _ h2, List.getElem_zipWith]

lemma tabWidths_go_length (data : List (List String)) (n : Nat)
    (h : ∀ l ∈ data, l.length = n) :
    ∀ ws : List Nat, ws.length = n →
      (data.foldl (fun ws line => List.zipWith max (cellLens line) ws) ws).length
        = n := by
  induction data with
  | nil => intro ws hws; simpa using hws
  | cons l data ih =>
    intro ws hws
    simp only [List.foldl_cons]
    apply ih (fun x hx => h x (List.mem_cons_of_mem _ hx))
    rw [List.length_zipWith]
    have hl : l.length = n := h l (List.mem_cons_self _ _)
    simp [cellLens, hl, hws]

lemma tabWidths_go_getD (data : List (List String)) (n : Nat)
    (h : ∀ l ∈ data, l.length = n) (i : Nat) (hi : i < n) :
    ∀ ws : List Nat, ws.length = n →
      (data.foldl (fun ws line => List.zipWith max (cellLens line) ws) ws).getD i 0
        = max ((data.map (fun l => (l.getD i "").length)).foldr max 0)
            (ws.getD i 0) := by
  induction data with
  | nil => intro ws hws; simp
  | cons l data ih =>
    intro ws hws
    have hl : l.length = n := h l (List.mem_cons_self _ _)
    have hil : i < l.length := by omega
    have hiw : i < ws.length := by omega
    have hicl : i < (cellLens l).length := by simpa [cellLens] using hil
    have hzl : (List.zipWith max (cellLens l) ws).length = n := by
      rw [List.length_zipWith]
      simp [cellLens, hl, hws]
    simp only [List.foldl_cons, List.map_cons, List.foldr_cons]
    rw [ih (fun x hx => h x (List.mem_cons_of_mem _ hx)) _ hzl,
        getD_zipWith_max _ _ i hicl hiw, getD_cellLens _ _ hil]
    omega

lemma tabWidths_length (header : List String) (data : List (List String))
    (huni : ∀ l ∈ data, l.length = header.length) :
    (tabWidths data header).length = header.length := by
  apply tabWidths_go_length data header.length huni
  simp [cellLens]

lemma tabWidths_getD (header : List String) (data : List (List String))
    (huni : ∀ l ∈ data, l.length = header.length) (i : Nat)
    (hi : i < header.length) :
    (tabWidths data header).getD i 0 = colWidth header data i := by
  unfold tabWidths colWidth
  rw [tabWidths_go_getD data header.length huni i hi _ (by simp [cellLens]),
      getD_cellLens _ _ hi]
  omega

/-! ## C7: table formatting contract -/

/-- **C7**: for every header row and uniform list of data rows, `tabulate`
computes each column's width as the maximum of the header cell's length
and all data cells' lengths in that column; the separator row consists of
dashes exactly matching each column's width; every cell in every emitted
row is padded to exactly its column's width; and on the concrete instance
of the api index (`["API", "Release"]` over `[["[a](.a.md)",
"released"]]`) the widths are `max (len "API") (len "[a](.a.md)")` and
`max (len "Release") (len "released")`. -/
theorem tabulate_pads_to_column_max (header : List String)
    (data : List (List String))
    (huni : ∀ l ∈ data, l.length = header.length) :
    ((tabWidths data header).length = header.length) ∧
    (∀ i, i < header.length →
      (tabWidths data header).getD i 0 = colWidth header data i) ∧
    (∀ i, i < header.length →
      (borderRow (tabWidths data header)).getD i ""
        = String.mk (List.replicate (colWidth header data i) '-')) ∧
    (∀ l, l ∈ header :: data → ∀ i, i < header.length →
      ((List.zipWith padCell (tabWidths data header) l).getD i "").length
        = colWidth header data i) ∧
    (tabulate data header = String.intercalate "\n"
      (formatRow (tabWidths data header) header ::
        formatRow (tabWidths data header) (borderRow (tabWidths data header)) ::
        data.map (formatRow (tabWidths data header)))) ∧
    (tabWidths [["[a](.a.md)", "released"]] ["API", "Release"]
      = [max "API".length "[a](.a.md)".length,
         max "Release".length "released".length]) := by
  have hlen := tabWidths_length header data huni
  have hget := tabWidths_getD header data huni
  refine ⟨hlen, hget, ?_, ?_, ?_, ?_⟩
  · intro i hi
    rw [getD_borderRow _ _ (by omega), hget i hi]
  · intro l hl i hi
    have hll : l.length = header.length := by
      rcases List.mem_cons.mp hl with h | h
      · subst h; rfl
      · exact huni l h
    rw [getD_zipWith_padCell _ _ i (by omega) (by omega), padCell_length,
        hget i hi]
    have hle : (l.getD i "").length ≤ colWidth header data i := by
      rcases List.mem_cons.mp hl with h | h
      · subst h; exact le_max_left _ _
      · refine le_trans ?_ (le_max_right ((header.getD i "").length) _)
        apply le_foldr_max
        exact List.mem_map.mpr ⟨l, h, rfl⟩
    omega
  · simp [tabulate]
  · decide

/-- **C7** witness: for the api index header and row, both computed widths
equal the specified column maxima. -/
theorem tabulate_pads_to_column_max_witness :
    (tabWidths [["[a](.a.md)", "released"]] ["API", "Release"]).getD 0 0
      = colWidth ["API", "Release"] [["[a](.a.md)", "released"]] 0 ∧
    (tabWidths [["[a](.a.md)", "released"]] ["API", "Release"]).getD 1 0
      = colWidth ["API", "Release"] [["[a](.a.md)", "released"]] 1 :=
  ⟨(tabulate_pads_to_column_max ["API", "Release"] [["[a](.a.md)", "released"]]
      (by decide)).2.1 0 (by decide),
   (tabulate_pads_to_column_max ["API", "Release"] [["[a](.a.md)", "released"]]
      (by decide)).2.1 1 (by decide)⟩

/-! ## Association-list lemmas -/

lemma lookup_isSome_iff {β : Type} (t : List (String × β)) (k : String) :
    (t.lookup k).isSome ↔ k ∈ t.map Prod.fst := by
  induction t with
  | nil => simp
  | cons e t ih =>
    obtain ⟨a, b⟩ := e
    by_cases he : k = a
    · subst he
      simp [List.lookup_cons]
    · simp [List.lookup_cons, beq_false_of_ne he, he, ih]

lemma mem_of_lookup_eq_some {β : Type} {t : List (String × β)} {k : String}
    {v : β} (h : t.lookup k = some v) : (k, v) ∈ t := by
  induction t with
  | nil => simp [List.lookup] at h
  | cons e t ih =>
    obtain ⟨a, b⟩ := e
    by_cases he : k = a
    · subst he
      rw [List.lookup_cons] at h
      simp only [beq_self_eq_true] at h
      simp only [Option.some.injEq] at h
      subst h
      exact List.mem_cons_self _ _
    · rw [List.lookup_cons, beq_false_of_ne he] at h
      exact List.mem_cons_of_mem _ (ih h)

lemma lookup_append {β : Type} (t₁ t₂ : List (String × β)) (x : String) :
    (t₁ ++ t₂).lookup x
      = match t₁.lookup x with | some v => some v | none => t₂.lookup x := by
  induction t₁ with
  | nil => simp [List.lookup]
  | cons e t ih =>
    obtain ⟨a, b⟩ := e
    by_cases hxa : x = a
    · subst hxa
      simp [List.lookup_cons]
    · simp only [List.cons_append, List.lookup_cons, beq_false_of_ne hxa]
      exact ih

lemma lookup_map_overwrite (t : SpecTable) (k : String) (v : Spec) (x : String) :
    (t.map (fun e => if e.1 = k then (k, v) else e)).lookup x
      = (t.lookup x).map (fun w => if x = k then v else w) := by
  induction t with
  | nil => simp
  | cons e t ih =>
    obtain ⟨a, b⟩ := e
    simp only [List.map_cons]
    by_cases hak : a = k
    · subst hak
      by_cases hxa : x = a
      · subst hxa
        simp [List.lookup_cons]
      · simp only [eq_self_iff_true, if_true, List.lookup_cons, beq_false_of_ne hxa]
        exact ih
    · by_cases hxa : x = a
      · subst hxa
        simp [if_neg hak, List.lookup_cons, hak]
      · simp only [if_neg hak, List.lookup_cons, beq_false_of_ne hxa]
        exact ih

lemma lookup_setKey (t : SpecTable) (k : String) (v : Spec) (x : String) :
    (setKey t k v).lookup x = if x = k then some v else t.lookup x := by
  by_cases hk : (t.lookup k).isSome
  · unfold setKey
    rw [if_pos hk, lookup_map_overwrite]
    by_cases hxk : x = k
    · subst hxk
      obtain ⟨w, hw⟩ := Option.isSome_iff_exists.mp hk
      simp [hw]
    · cases hx : t.lookup x <;> simp [hxk]
  · unfold setKey
    rw [if_neg hk, lookup_append]
    by_cases hxk : x = k
    · subst hxk
      have hnone : t.lookup x = none := by
        cases hx : t.lookup x with
        | none => rfl
        | some w => exact absurd (by simp [hx]) hk
      simp [hnone, List.lookup_cons]
    · cases hx : t.lookup x with
      | none => simp [List.lookup_cons, beq_false_of_ne hxk, hxk]
      | some w => simp [hxk]

lemma mem_setKey {t : SpecTable} {k : String} {v : Spec} {p : String × Spec}
    (h : p ∈ setKey t k v) : p = (k, v) ∨ (p ∈ t ∧ p.1 ≠ k) := by
  unfold setKey at h
  split at h
  next hk =>
    rcases List.mem_map.mp h with ⟨e, he, hfe⟩
    by_cases hek : e.1 = k
    · left
      rw [← hfe, if_pos hek]
    · right
      rw [← hfe, if_neg hek]
      exact ⟨he, hek⟩
  next hk =>
    rcases List.mem_append.mp h with he | he
    · by_cases hpk : p.1 = k
      · exfalso
        apply hk
        rw [lookup_isSome_iff]
        exact List.mem_map.mpr ⟨p, he, hpk⟩
      · exact Or.inr ⟨he, hpk⟩
    · left
      simpa using he

/-! ## Resolver step characterization -/

/-- A successful `parse_rosidl_file` call marks the name visited, extends
`depends` with exactly the not-yet-visited pure dependencies, stores the
pure spec entry when there is one, and can only leave a documentation
name unstored when its extension is neither `msg` nor `srv`. -/
lemma parse_rosidl_file_ok {env : Env} {st st' : RState} {name : String}
    (h : parse_rosidl_file env st name = .ok st') :
    st'.visited = insert name st.visited ∧
    (∀ x, x ∈ st'.depends ↔ x ∈ st.depends ∨
      (x ∈ pureDeps env name ∧ x ∉ insert name st.visited)) ∧
    ((pureSpec env name = none ∧ st'.specs = st.specs) ∨
      (∃ sp, pureSpec env name = some sp ∧ st'.specs = setKey st.specs name sp)) ∧
    (is_documentation_msg name = true → pureSpec env name = none →
      ∃ pkg ext ms, pySplit '/' name = [pkg, ext, ms] ∧ ext ≠ "msg" ∧ ext ≠ "srv") := by
  unfold parse_rosidl_file at h
  split at h
  next hdoc =>
    split at h
    next pkg ext ms heq =>
      split at h
      next hext =>
        subst hext
        split at h
        next henv => exact absurd h (by simp)
        next fields henv =>
          have hpd : pureDeps env name
              = (fields.map
                  (fun f => strip_array_suffix (normalize_msg_name f.2))).toFinset := by
            simp [pureDeps, hdoc, heq, henv]
          have hps : pureSpec env name = some
              (if (fields.map (fun f => (f.1, normalize_msg_name f.2))).isEmpty then []
               else [("msg", fields.map (fun f => (f.1, normalize_msg_name f.2)))]) := by
            simp [pureSpec, hdoc, heq, henv]
          injection h with h
          subst h
          refine ⟨rfl, ?_, Or.inr ⟨_, hps, rfl⟩, ?_⟩
          · intro x
            simp only [Finset.mem_union, parse_rosidl_spec, List.mem_toFinset,
              List.mem_filter, List.map_map, Function.comp_def,
              decide_eq_true_eq, hpd]
          · intro _ hnone
            rw [hps] at hnone
            exact absurd hnone (by simp)
      next hext =>
        split at h
        next hsrv =>
          subst hsrv
          split at h
          next henv => exact absurd h (by simp)
          next rr henv =>
            have hpd : pureDeps env name
                = (rr.1.map
                    (fun f => strip_array_suffix (normalize_msg_name f.2))).toFinset ∪
                  (rr.2.map
                    (fun f => strip_array_suffix (normalize_msg_name f.2))).toFinset := by
              simp [pureDeps, hdoc, heq, hext, henv]
            have hps : pureSpec env name = some
                ((if (rr.1.map (fun f => (f.1, normalize_msg_name f.2))).isEmpty then []
                  else [("req", rr.1.map (fun f => (f.1, normalize_msg_name f.2)))]) ++
                 (if (rr.2.map (fun f => (f.1, normalize_msg_name f.2))).isEmpty then []
                  else [("res", rr.2.map (fun f => (f.1, normalize_msg_name f.2)))])) := by
              simp [pureSpec, hdoc, heq, hext, henv]
            injection h with h
            subst h
            refine ⟨rfl, ?_, Or.inr ⟨_, hps, rfl⟩, ?_⟩
            · intro x
              simp only [Finset.mem_union, parse_rosidl_spec, List.mem_toFinset,
                List.mem_filter, List.map_map, Function.comp_def,
                decide_eq_true_eq, hpd]
              tauto
            · intro _ hnone
              rw [hps] at hnone
              exact absurd hnone (by simp)
        next hsrv =>
          injection h with h
          subst h
          have hpd : pureDeps env name = ∅ := by
            simp [pureDeps, hdoc, heq, hext, hsrv]
          have hps : pureSpec env name = none := by
            simp [pureSpec, hdoc, heq, hext, hsrv]
          refine ⟨rfl, ?_, Or.inl ⟨hps, rfl⟩, ?_⟩
          · intro x
            simp [hpd]
          · intro _ _
            exact ⟨pkg, ext, ms, heq, hext, hsrv⟩
    next heq =>
      exact absurd h (by simp)
  next hdoc =>
    injection h with h
    subst h
    have hpd : pureDeps env name = ∅ := by
      simp [pureDeps, hdoc]
    have hps : pureSpec env name = none := by
      simp [pureSpec, hdoc]
    refine ⟨rfl, ?_, Or.inl ⟨hps, rfl⟩, ?_⟩
    · intro x
      simp [hpd]
    · intro hdoc' _
      exact absurd hdoc' hdoc

/-! ## Resolver invariants -/

lemma doc_of_pureSpec_ne_none {env : Env} {k : String}
    (h : pureSpec env k ≠ none) : is_documentation_msg k = true := by
  by_cases hd : is_documentation_msg k = true
  · exact hd
  · exact absurd (by simp [pureSpec, hd]) h

/-- The invariant holds at loop entry. -/
lemma resolver_inv_init (env : Env) (seeds : Finset String) :
    ResolverInv env seeds (initState seeds) := by
  constructor
  · intro x hx
    exact Or.inl hx
  · intro x _
    simp [initState]
  · intro k hk
    simp [initState] at hk
  · intro k
    simp [initState, List.lookup]
  · intro p hp
    simp [initState] at hp
  · intro k hk
    simp [initState] at hk

/-- Each successful iteration preserves the invariant. -/
lemma resolver_inv_step {env : Env} {seeds : Finset String} {st st' : RState}
    (hinv : ResolverInv env seeds st) (hstep : ResolveStep env st st') :
    ResolverInv env seeds st' := by
  obtain ⟨name, hmem, hok⟩ := hstep
  obtain ⟨hvis, hdep, hspec, hdocp⟩ := parse_rosidl_file_ok hok
  constructor
  case seeds_sub =>
    intro x hx
    rcases hinv.seeds_sub x hx with hxd | hxv
    · by_cases hxn : x = name
      · right
        rw [hvis, hxn]
        exact Finset.mem_insert_self _ _
      · left
        exact (hdep x).mpr (Or.inl (Finset.mem_erase.mpr ⟨hxn, hxd⟩))
    · right
      rw [hvis]
      exact Finset.mem_insert_of_mem hxv
  case dep_dis =>
    intro x hx
    rcases (hdep x).mp hx with hx | ⟨_, hx2⟩
    · have hxe := Finset.mem_erase.mp hx
      rw [hvis]
      intro hc
      rcases Finset.mem_insert.mp hc with hc | hc
      · exact hxe.1 hc
      · exact hinv.dep_dis x hxe.2 hc
    · rw [hvis]
      exact hx2
  case vis_closed =>
    intro k hk x hx
    rw [hvis] at hk
    rcases Finset.mem_insert.mp hk with rfl | hk
    · by_cases hxv : x ∈ insert k st.visited
      · right
        rw [hvis]
        exact hxv
      · left
        exact (hdep x).mpr (Or.inr ⟨hx, hxv⟩)
    · rcases hinv.vis_closed k hk x hx with hxd | hxv
      · by_cases hxn : x = name
        · right
          rw [hvis, hxn]
          exact Finset.mem_insert_self _ _
        · left
          exact (hdep x).mpr (Or.inl (Finset.mem_erase.mpr ⟨hxn, hxd⟩))
      · right
        rw [hvis]
        exact Finset.mem_insert_of_mem hxv
  case keys_vis =>
    intro k
    rcases hspec with ⟨hnone, hsame⟩ | ⟨sp, hsp, hset⟩
    · rw [hsame, hvis]
      by_cases hkn : k = name
      · subst hkn
        constructor
        · intro hs
          exact absurd ((hinv.keys_vis k).mp hs).1 (hinv.dep_dis k hmem)
        · intro ⟨_, hne⟩
          exact absurd hnone hne
      · rw [hinv.keys_vis k]
        simp [Finset.mem_insert, hkn]
    · rw [hset, hvis]
      by_cases hkn : k = name
      · subst hkn
        rw [show (setKey st.specs k sp).lookup k = some sp by
          rw [lookup_setKey]; simp]
        simp [hsp]
      · rw [show (setKey st.specs name sp).lookup k = st.specs.lookup k by
          rw [lookup_setKey]; simp [hkn]]
        rw [hinv.keys_vis k]
        simp [Finset.mem_insert, hkn]
  case entries_pure =>
    intro p hp
    rcases hspec with ⟨_, hsame⟩ | ⟨sp, hsp, hset⟩
    · rw [hsame] at hp
      exact hinv.entries_pure p hp
    · rw [hset] at hp
      rcases mem_setKey hp with rfl | ⟨hp2, _⟩
      · exact hsp
      · exact hinv.entries_pure p hp2
  case vis_doc =>
    intro k hk hkdoc hknone
    rw [hvis] at hk
    rcases Finset.mem_insert.mp hk with rfl | hk
    · exact hdocp hkdoc hknone
    · exact hinv.vis_doc k hk hkdoc hknone

/-- Successful iterations preserve the invariant transitively. -/
lemma resolver_inv_steps {env : Env} {seeds : Finset String} :
    ∀ {n : Nat} {st₀ st : RState}, StepsN env n st₀ st →
      ResolverInv env seeds st₀ → ResolverInv env seeds st := by
  intro n st₀ st h
  induction h with
  | refl st => exact id
  | tail h1 h2 ih =>
    intro h0
    exact resolver_inv_step (ih h0) h2

/-- The invariant holds at every state reachable from loop entry. -/
lemma resolver_inv_run {env : Env} {seeds : Finset String} {n : Nat} {st : RState}
    (h : StepsN env n (initState seeds) st) : ResolverInv env seeds st :=
  resolver_inv_steps h (resolver_inv_init env seeds)

/-- Both the work queue and the visited set stay inside any set that
contains the starting queue and visited names and is closed under pure
dependencies. -/
lemma resolver_bound {env : Env} {S : Finset String}
    (hclosed : ∀ k ∈ S, pureDeps env k ⊆ S) :
    ∀ {n : Nat} {st st' : RState}, StepsN env n st st' →
      (∀ x ∈ st.depends, x ∈ S) → (∀ x ∈ st.visited, x ∈ S) →
      (∀ x ∈ st'.depends, x ∈ S) ∧ (∀ x ∈ st'.visited, x ∈ S) := by
  intro n st st' h
  induction h with
  | refl st => exact fun hd hv => ⟨hd, hv⟩
  | tail h1 h2 ih =>
    intro hd hv
    obtain ⟨hd2, hv2⟩ := ih hd hv
    obtain ⟨name, hmem, hok⟩ := h2
    obtain ⟨hvis, hdep, _, _⟩ := parse_rosidl_file_ok hok
    have hnameS : name ∈ S := hd2 name hmem
    constructor
    · intro x hx
      rcases (hdep x).mp hx with hx | ⟨hx, _⟩
      · exact hd2 x (Finset.mem_of_mem_erase hx)
      · exact hclosed name hnameS hx
    · intro x hx
      rw [hvis] at hx
      rcases Finset.mem_insert.mp hx with rfl | hx
      · exact hnameS
      · exact hv2 x hx

/-- Each iteration adds exactly one new name to the visited set. -/
lemma resolver_card_gen {env : Env} {seeds : Finset String} :
    ∀ {n : Nat} {st₀ st : RState}, StepsN env n st₀ st →
      ResolverInv env seeds st₀ →
      st.visited.card = st₀.visited.card + n := by
  intro n st₀ st h
  induction h with
  | refl st =>
    intro _
    simp
  | tail h1 h2 ih =>
    intro h0
    have hinv := resolver_inv_steps h1 h0
    obtain ⟨name, hmem, hok⟩ := h2
    obtain ⟨hvis, _, _, _⟩ := parse_rosidl_file_ok hok
    rw [hvis, Finset.card_insert_of_not_mem (hinv.dep_dis name hmem), ih h0]
    omega

/-- An `n`-iteration run from loop entry visits exactly `n` names. -/
lemma resolver_card {env : Env} {seeds : Finset String} {n : Nat} {st : RState}
    (h : StepsN env n (initState seeds) st) : st.visited.card = n := by
  have := resolver_card_gen h (resolver_inv_init env seeds)
  simpa [initState] using this

/-- A step from a reachable state strictly enlarges the visited set. -/
lemma resolver_step_grows {env : Env} {seeds : Finset String} {st st' : RState}
    (h : Resolves env (initState seeds) st) (hstep : ResolveStep env st st') :
    st.visited ⊂ st'.visited := by
  obtain ⟨n, hn⟩ := h
  have hinv := resolver_inv_run hn
  obtain ⟨name, hmem, hok⟩ := hstep
  obtain ⟨hvis, _, _, _⟩ := parse_rosidl_file_ok hok
  rw [hvis]
  exact Finset.ssubset_insert (hinv.dep_dis name hmem)

/-! ## C3: termination of the resolver loop -/

/-- **C3**: over any finite universe `U` containing the seeds and closed
under schema-derived names, the resolver loop terminates: every iteration
from a reachable state strictly grows the visited set, an `n`-iteration
run has a visited set of size exactly `n`, and hence no run can exceed
`U.card` iterations. -/
theorem resolver_terminates (env : Env) (seeds U : Finset String)
    (hseed : ∀ x ∈ seeds, x ∈ U) (hclosed : ∀ k ∈ U, pureDeps env k ⊆ U) :
    (∀ st st', Resolves env (initState seeds) st → ResolveStep env st st' →
      st.visited ⊂ st'.visited) ∧
    (∀ n st, StepsN env n (initState seeds) st →
      st.visited.card = n ∧ n ≤ U.card) := by
  constructor
  · exact fun st st' h hstep => resolver_step_grows h hstep
  · intro n st h
    have hcard := resolver_card h
    have hbound := (resolver_bound hclosed h (fun x hx => hseed x hx)
      (fun x hx => by simp [initState] at hx)).2
    exact ⟨hcard, by
      rw [← hcard]
      exact Finset.card_le_card (fun x hx => hbound x hx)⟩

/-- First concrete iteration: pop the seed and store its spec. -/
lemma step0a : ResolveStep env0 (initState seeds0) stA :=
  ⟨"autoware_adapi_v1_msgs/msg/A", by decide, by decide⟩

/-- Second concrete iteration: pop the referenced primitive name. -/
lemma step0b : ResolveStep env0 stA stB :=
  ⟨"uint32", by decide, by decide⟩

/-- The concrete two-step run over `env0`: pop the seed, then pop the
primitive name it references. -/
lemma run0 : StepsN env0 2 (initState seeds0) stB :=
  StepsN.tail (StepsN.tail (StepsN.refl _) step0a) step0b

/-- **C3** witness: the concrete run has two iterations, visits two
names, and two is at most the size of the two-name universe. -/
theorem resolver_terminates_witness :
    stB.visited.card = 2 ∧ 2 ≤ univ0.card :=
  (resolver_terminates env0 seeds0 univ0 (by decide) (by decide)).2 2 stB run0

/-! ## C2: the resolver's completion invariant -/

/-- **C2**: when the resolver loop completes (the work queue is empty),
the visited set contains every initial seed, and every key of the
resulting `specs` table satisfies the documentation-type predicate; a
non-documentation name can appear as a field value but never becomes a
key. -/
theorem resolver_visited_superset_and_doc_keys (env : Env)
    (seeds : Finset String) (st : RState)
    (h : Resolves env (initState seeds) st) (hdone : st.depends = ∅) :
    (∀ x ∈ seeds, x ∈ st.visited) ∧
    (∀ k ∈ keysOf st.specs, is_documentation_msg k = true) := by
  obtain ⟨n, hn⟩ := h
  have hinv := resolver_inv_run hn
  constructor
  · intro x hx
    rcases hinv.seeds_sub x hx with hxd | hxv
    · rw [hdone] at hxd
      exact absurd hxd (Finset.not_mem_empty x)
    · exact hxv
  · intro k hk
    have hs : (st.specs.lookup k).isSome := (lookup_isSome_iff _ _).mpr hk
    exact doc_of_pureSpec_ne_none ((hinv.keys_vis k).mp hs).2

/-- **C2** witness: in the completed concrete run, the seed is visited,
its one key is a documentation type, while the non-documentation name
`"uint32"` appears as a field value yet is not a key. -/
theorem resolver_visited_superset_and_doc_keys_witness :
    "autoware_adapi_v1_msgs/msg/A" ∈ stB.visited ∧
    is_documentation_msg "autoware_adapi_v1_msgs/msg/A" = true ∧
    "uint32" ∉ keysOf stB.specs :=
  ⟨(resolver_visited_superset_and_doc_keys env0 seeds0 stB ⟨2, run0⟩ rfl).1
      "autoware_adapi_v1_msgs/msg/A" (by decide),
   (resolver_visited_superset_and_doc_keys env0 seeds0 stB ⟨2, run0⟩ rfl).2
      "autoware_adapi_v1_msgs/msg/A" (by decide),
   by decide⟩

/-! ## C8: determinism of the resolver and of the export -/

/-- Any run's visited set is contained in the visited set of any
completed run over the same corpus and seeds. -/
lemma visited_sub_of_completed {env : Env} {seeds : Finset String}
    {st₁ st₂ : RState}
    (h₁ : Resolves env (initState seeds) st₁)
    (h₂ : Resolves env (initState seeds) st₂) (hd₂ : st₂.depends = ∅) :
    ∀ x ∈ st₁.visited, x ∈ st₂.visited := by
  obtain ⟨n₁, hn₁⟩ := h₁
  obtain ⟨n₂, hn₂⟩ := h₂
  have hinv₂ := resolver_inv_run hn₂
  have hSclosed : ∀ k ∈ st₂.visited, pureDeps env k ⊆ st₂.visited := by
    intro k hk x hx
    rcases hinv₂.vis_closed k hk x hx with hxx | hxx
    · rw [hd₂] at hxx
      exact absurd hxx (Finset.not_mem_empty x)
    · exact hxx
  have hSseeds : ∀ x ∈ seeds, x ∈ st₂.visited := by
    intro x hx
    rcases hinv₂.seeds_sub x hx with hxx | hxx
    · rw [hd₂] at hxx
      exact absurd hxx (Finset.not_mem_empty x)
    · exact hxx
  exact (resolver_bound hSclosed hn₁ (fun x hx => hSseeds x hx)
    (fun x hx => by simp [initState] at hx)).2

/-- **C8**: the resolver's result does not depend on the order in which
the unordered work queue yields names: any two completed runs over the
same corpus and seed set have the same visited set, lookup-identical
`specs` tables, and identical sorted-key serializations (the YAML
export). -/
theorem resolver_deterministic (env : Env) (seeds : Finset String)
    (st₁ st₂ : RState)
    (h₁ : Resolves env (initState seeds) st₁) (hd₁ : st₁.depends = ∅)
    (h₂ : Resolves env (initState seeds) st₂) (hd₂ : st₂.depends = ∅) :
    st₁.visited = st₂.visited ∧
    (∀ k, st₁.specs.lookup k = st₂.specs.lookup k) ∧
    serializeSpecs st₁.specs = serializeSpecs st₂.specs := by
  have hv12 := visited_sub_of_completed h₁ h₂ hd₂
  have hv21 := visited_sub_of_completed h₂ h₁ hd₁
  have hvis : st₁.visited = st₂.visited :=
    Finset.ext (fun x => ⟨hv12 x, hv21 x⟩)
  obtain ⟨n₁, hn₁⟩ := h₁
  obtain ⟨n₂, hn₂⟩ := h₂
  have hi₁ := resolver_inv_run hn₁
  have hi₂ := resolver_inv_run hn₂
  have hlook : ∀ k, st₁.specs.lookup k = st₂.specs.lookup k := by
    intro k
    cases hs₁ : st₁.specs.lookup k with
    | some sp =>
      have hk₁ : (st₁.specs.lookup k).isSome := by simp [hs₁]
      have hcond := (hi₁.keys_vis k).mp hk₁
      have hk₂ : (st₂.specs.lookup k).isSome :=
        (hi₂.keys_vis k).mpr ⟨hvis ▸ hcond.1, hcond.2⟩
      obtain ⟨sp₂, hs₂⟩ := Option.isSome_iff_exists.mp hk₂
      have hp₁ : pureSpec env k = some sp :=
        hi₁.entries_pure _ (mem_of_lookup_eq_some hs₁)
      have hp₂ : pureSpec env k = some sp₂ :=
        hi₂.entries_pure _ (mem_of_lookup_eq_some hs₂)
      rw [hs₂, ← hp₂, ← hp₁]
    | none =>
      cases hs₂ : st₂.specs.lookup k with
      | none => rfl
      | some sp₂ =>
        have hk₂ : (st₂.specs.lookup k).isSome := by simp [hs₂]
        have hcond := (hi₂.keys_vis k).mp hk₂
        have hk₁ : (st₁.specs.lookup k).isSome :=
          (hi₁.keys_vis k).mpr ⟨hvis.symm ▸ hcond.1, hcond.2⟩
        rw [hs₁] at hk₁
        exact absurd hk₁ (by simp)
  refine ⟨hvis, hlook, ?_⟩
  have hkeys : (keysOf st₁.specs).toFinset = (keysOf st₂.specs).toFinset := by
    apply Finset.ext
    intro k
    simp only [List.mem_toFinset, keysOf]
    rw [← lookup_isSome_iff, ← lookup_isSome_iff, hlook k]
  unfold serializeSpecs
  rw [hkeys]
  apply List.map_congr_left
  intro k _
  rw [hlook k]

/-- Intermediate state of the run over `seeds1` popping `"uint32"`
first. -/
def stD1 : RState := ⟨{"zzz"}, {"uint32"}, []⟩

/-- Intermediate state of the run over `seeds1` popping `"zzz"` first. -/
def stD2 : RState := ⟨{"uint32"}, {"zzz"}, []⟩

/-- Run over `seeds1`, order `"uint32"` then `"zzz"`. -/
lemma run1 : StepsN env0 2 (initState seeds1) stC1 :=
  StepsN.tail (StepsN.tail (StepsN.refl _)
      (⟨"uint32", by decide, by decide⟩ : ResolveStep env0 (initState seeds1) stD1))
    (⟨"zzz", by decide, by decide⟩ : ResolveStep env0 stD1 stC1)

/-- Run over `seeds1`, order `"zzz"` then `"uint32"`. -/
lemma run2 : StepsN env0 2 (initState seeds1) stC2 :=
  StepsN.tail (StepsN.tail (StepsN.refl _)
      (⟨"zzz", by decide, by decide⟩ : ResolveStep env0 (initState seeds1) stD2))
    (⟨"uint32", by decide, by decide⟩ : ResolveStep env0 stD2 stC2)

/-- **C8** witness: the two pop orders over `seeds1` complete in states
with equal visited sets and identical serialized tables. -/
theorem resolver_deterministic_witness :
    stC1.visited = stC2.visited ∧
    serializeSpecs stC1.specs = serializeSpecs stC2.specs :=
  ⟨(resolver_deterministic env0 seeds1 stC1 stC2 ⟨2, run1⟩ rfl ⟨2, run2⟩ rfl).1,
   (resolver_deterministic env0 seeds1 stC1 stC2 ⟨2, run1⟩ rfl ⟨2, run2⟩ rfl).2.2⟩

/-! ## Split shape lemmas

Normalized-then-stripped field types are either bare names or three-part
names with the middle part `msg`; this is what lets the dependency-graph
phase find every documentation-type field value among the table's keys. -/

lemma pySplitChars_ne_nil (sep : Char) (l : List Char) :
    pySplitChars sep l ≠ [] := by
  cases l with
  | nil => simp [pySplitChars]
  | cons c rest =>
    simp only [pySplitChars]
    split <;> simp

lemma mem_pySplitChars_not_sep {sep : Char} {l : List Char} :
    ∀ x ∈ pySplitChars sep l, sep ∉ x := by
  induction l with
  | nil =>
    intro x hx
    simp [pySplitChars] at hx
    simp [hx]
  | cons c rest ih =>
    intro x hx
    simp only [pySplitChars] at hx
    by_cases hc : c = sep
    · rw [if_pos hc] at hx
      rcases List.mem_cons.mp hx with rfl | hx
      · simp
      · exact ih x hx
    · rw [if_neg hc] at hx
      rcases List.mem_cons.mp hx with rfl | hx
      · intro hmem
        rcases List.mem_cons.mp hmem with hs | hs
        · exact hc hs.symm
        · have hh : (pySplitChars sep rest).headD [] ∈ pySplitChars sep rest := by
            cases hsp : pySplitChars sep rest with
            | nil => exact absurd hsp (pySplitChars_ne_nil _ _)
            | cons a t => simp
          exact ih _ hh hs
      · exact ih x (List.mem_of_mem_tail hx)

lemma mem_headD_pySplitChars {sep : Char} {l : List Char} {c : Char}
    (h : c ∈ (pySplitChars sep l).headD []) : c ∈ l := by
  induction l with
  | nil => simp [pySplitChars] at h
  | cons a rest ih =>
    simp only [pySplitChars] at h
    by_cases ha : a = sep
    · rw [if_pos ha] at h
      simp at h
    · rw [if_neg ha] at h
      simp only [List.headD_cons] at h
      rcases List.mem_cons.mp h with rfl | h
      · exact List.mem_cons_self _ _
      · exact List.mem_cons_of_mem _ (ih h)

lemma pySplitChars_of_not_mem {sep : Char} {l : List Char} (h : sep ∉ l) :
    pySplitChars sep l = [l] := by
  induction l with
  | nil => rfl
  | cons c rest ih =>
    have hc : ¬(c = sep) := by
      intro hce
      subst hce
      exact h (List.mem_cons_self _ _)
    have hrest : sep ∉ rest := fun hm => h (List.mem_cons_of_mem _ hm)
    simp [pySplitChars, if_neg hc, ih hrest]

lemma pySplitChars_append_sep {sep : Char} {l1 : List Char} (l2 : List Char)
    (h : sep ∉ l1) :
    pySplitChars sep (l1 ++ sep :: l2) = l1 :: pySplitChars sep l2 := by
  induction l1 with
  | nil => simp [pySplitChars]
  | cons c l1 ih =>
    have hc : ¬(c = sep) := by
      intro hce
      subst hce
      exact h (List.mem_cons_self _ _)
    have h1 : sep ∉ l1 := fun hm => h (List.mem_cons_of_mem _ hm)
    simp [pySplitChars, if_neg hc, ih h1]

lemma headD_pySplitChars_append (sep : Char) (l1 l2 : List Char)
    (h : sep ∉ l1) :
    (pySplitChars sep (l1 ++ l2)).headD []
      = l1 ++ (pySplitChars sep l2).headD [] := by
  induction l1 with
  | nil => simp
  | cons c l1 ih =>
    have hc : ¬(c = sep) := by
      intro hce
      subst hce
      exact h (List.mem_cons_self _ _)
    have h1 : sep ∉ l1 := fun hm => h (List.mem_cons_of_mem _ hm)
    simp only [List.cons_append, pySplitChars, if_neg hc, List.headD_cons,
      List.append_eq]
    rw [ih h1]

lemma peel_pySplitChars {sep : Char} (c : Char) (l : List Char) (hc : ¬(c = sep)) :
    (pySplitChars sep (c :: l)).headD [] = c :: (pySplitChars sep l).headD [] := by
  simp only [pySplitChars, if_neg hc, List.headD_cons]

lemma exists_first_occurrence {α : Type} {a : α} {l : List α} (h : a ∈ l) :
    ∃ u w, l = u ++ a :: w ∧ a ∉ u := by
  induction l with
  | nil => cases h
  | cons c l ih =>
    by_cases hca : c = a
    · exact ⟨[], l, by simp [hca], by simp⟩
    · have hal : a ∈ l := by
        rcases List.mem_cons.mp h with hh | hh
        · exact absurd hh.symm hca
        · exact hh
      obtain ⟨u, w, hl, hu⟩ := ih hal
      refine ⟨c :: u, w, by rw [hl]; rfl, ?_⟩
      intro hm
      rcases List.mem_cons.mp hm with hm | hm
      · exact hca hm.symm
      · exact hu hm

lemma mk_data_eq (s : String) : String.mk s.data = s := rfl

lemma string_data_append (s t : String) : (s ++ t).data = s.data ++ t.data := rfl

lemma pySplit_ne_nil (sep : Char) (s : String) : pySplit sep s ≠ [] := by
  unfold pySplit
  intro h
  exact pySplitChars_ne_nil sep s.data (List.map_eq_nil_iff.mp h)

lemma pySplit_of_not_mem {sep : Char} {s : String} (h : sep ∉ s.data) :
    pySplit sep s = [s] := by
  unfold pySplit
  rw [pySplitChars_of_not_mem h]
  simp [mk_data_eq]

lemma sep_not_mem_of_pySplit_mem {sep : Char} {s x : String}
    (h : x ∈ pySplit sep s) : sep ∉ x.data := by
  unfold pySplit at h
  rcases List.mem_map.mp h with ⟨y, hy, rfl⟩
  exact mem_pySplitChars_not_sep y hy

lemma strip_data (name : String) :
    (strip_array_suffix name).data = (pySplitChars '[' name.data).headD [] := by
  unfold strip_array_suffix pySplit
  cases hsp : pySplitChars '[' name.data with
  | nil => exact absurd hsp (pySplitChars_ne_nil _ _)
  | cons a t => simp

/-- The central shape property: a normalized-then-stripped type name
either has a single-part split (a bare name) or splits into exactly three
parts with `msg` in the middle. -/
lemma strip_normalize_shape (raw : String) :
    (∃ p, pySplit '/' (strip_array_suffix (normalize_msg_name raw)) = [p]) ∨
    (∃ p q, pySplit '/' (strip_array_suffix (normalize_msg_name raw))
      = [p, "msg", q]) := by
  cases hsp : pySplit '/' raw with
  | nil => exact absurd hsp (pySplit_ne_nil _ _)
  | cons p0 rest =>
    have hp0 : ('/' : Char) ∉ p0.data :=
      sep_not_mem_of_pySplit_mem (hsp ▸ List.mem_cons_self _ _)
    cases rest with
    | nil =>
      have hnorm : normalize_msg_name raw = p0 := by
        simp [normalize_msg_name, hsp]
      left
      refine ⟨strip_array_suffix p0, ?_⟩
      rw [hnorm]
      apply pySplit_of_not_mem
      rw [strip_data]
      intro hc
      exact hp0 (mem_headD_pySplitChars hc)
    | cons p1 rest2 =>
      have hp1 : ('/' : Char) ∉ p1.data :=
        sep_not_mem_of_pySplit_mem
          (hsp ▸ List.mem_cons_of_mem _ (List.mem_cons_self _ _))
      have hnorm : normalize_msg_name raw = p0 ++ "/msg/" ++ p1 := by
        simp [normalize_msg_name, hsp]
      have hdata : (p0 ++ "/msg/" ++ p1).data
          = p0.data ++ '/' :: 'm' :: 's' :: 'g' :: '/' :: p1.data := by
        rw [string_data_append, string_data_append, List.append_assoc]
        rfl
      rw [hnorm]
      by_cases hbr : ('[' : Char) ∈ p0.data
      · obtain ⟨u, w, hu, hnu⟩ := exists_first_occurrence hbr
        have hstrip : (strip_array_suffix (p0 ++ "/msg/" ++ p1)).data = u := by
          rw [strip_data, hdata, hu]
          rw [show (u ++ '[' :: w) ++ '/' :: 'm' :: 's' :: 'g' :: '/' :: p1.data
              = u ++ '[' :: (w ++ '/' :: 'm' :: 's' :: 'g' :: '/' :: p1.data) from by
            simp]
          rw [pySplitChars_append_sep _ hnu]
          simp
        left
        refine ⟨strip_array_suffix (p0 ++ "/msg/" ++ p1), ?_⟩
        apply pySplit_of_not_mem
        rw [hstrip]
        intro hc
        exact hp0 (hu ▸ List.mem_append.mpr (Or.inl hc))
      · have hq : ('/' : Char) ∉ (pySplitChars '[' p1.data).headD [] :=
          fun hc => hp1 (mem_headD_pySplitChars hc)
        have hstrip : (strip_array_suffix (p0 ++ "/msg/" ++ p1)).data
            = p0.data ++ '/' :: 'm' :: 's' :: 'g' :: '/' ::
              ((pySplitChars '[' p1.data).headD []) := by
          rw [strip_data, hdata]
          rw [headD_pySplitChars_append _ _ _ hbr]
          rw [peel_pySplitChars _ _ (by decide), peel_pySplitChars _ _ (by decide),
              peel_pySplitChars _ _ (by decide), peel_pySplitChars _ _ (by decide),
              peel_pySplitChars _ _ (by decide)]
        right
        refine ⟨p0, String.mk ((pySplitChars '[' p1.data).headD []), ?_⟩
        unfold pySplit
        rw [hstrip]
        rw [show p0.data ++ '/' :: 'm' :: 's' :: 'g' :: '/' ::
              ((pySplitChars '[' p1.data).headD [])
            = p0.data ++ '/' :: (['m', 's', 'g'] ++ '/' ::
              ((pySplitChars '[' p1.data).headD [])) from by simp]
        rw [pySplitChars_append_sep _ hp0]
        rw [pySplitChars_append_sep _ (by decide)]
        rw [pySplitChars_of_not_mem hq]
        simp [mk_data_eq]

/-! ## Closedness of completed tables -/

/-- Every field value of a stored pure spec is a normalized raw type, and
its stripped form is among the pure dependencies of the key. -/
lemma spec_field_pureDeps {env : Env} {k : String} {sp : Spec}
    (hsp : pureSpec env k = some sp) {q : String × Fields} (hq : q ∈ sp)
    {f : String × String} (hf : f ∈ q.2) :
    ∃ raw, f.2 = normalize_msg_name raw ∧
      strip_array_suffix f.2 ∈ pureDeps env k := by
  unfold pureSpec at hsp
  split at hsp
  next hdoc =>
    split at hsp
    next pkg ext ms heq =>
      split at hsp
      next hext =>
        cases henv : env.msg k with
        | none =>
          rw [henv] at hsp
          simp at hsp
        | some fields =>
          rw [henv] at hsp
          simp only [Option.map_some', Option.some.injEq] at hsp
          have hpd : pureDeps env k
              = (fields.map
                  (fun f => strip_array_suffix (normalize_msg_name f.2))).toFinset := by
            simp [pureDeps, hdoc, heq, hext, henv]
          split at hsp
          next hemp =>
            rw [← hsp] at hq
            simp at hq
          next hemp =>
            rw [← hsp] at hq
            simp only [List.mem_singleton] at hq
            subst hq
            obtain ⟨a, ha, haf⟩ := List.mem_map.mp hf
            refine ⟨a.2, by rw [← haf], ?_⟩
            rw [hpd, ← haf]
            simp only [List.mem_toFinset]
            exact List.mem_map.mpr ⟨a, ha, rfl⟩
      next hext =>
        split at hsp
        next hsrv =>
          cases henv : env.srv k with
          | none =>
            rw [henv] at hsp
            simp at hsp
          | some rr =>
            rw [henv] at hsp
            simp only [Option.map_some', Option.some.injEq] at hsp
            have hpd : pureDeps env k
                = (rr.1.map
                    (fun f => strip_array_suffix (normalize_msg_name f.2))).toFinset ∪
                  (rr.2.map
                    (fun f => strip_array_suffix (normalize_msg_name f.2))).toFinset := by
              simp [pureDeps, hdoc, heq, hext, hsrv, henv]
            rw [← hsp] at hq
            rcases List.mem_append.mp hq with hq1 | hq1
            · split at hq1
              next => simp at hq1
              next =>
                simp only [List.mem_singleton] at hq1
                subst hq1
                obtain ⟨a, ha, haf⟩ := List.mem_map.mp hf
                refine ⟨a.2, by rw [← haf], ?_⟩
                rw [hpd, ← haf]
                simp only [Finset.mem_union, List.mem_toFinset]
                exact Or.inl (List.mem_map.mpr ⟨a, ha, rfl⟩)
            · split at hq1
              next => simp at hq1
              next =>
                simp only [List.mem_singleton] at hq1
                subst hq1
                obtain ⟨a, ha, haf⟩ := List.mem_map.mp hf
                refine ⟨a.2, by rw [← haf], ?_⟩
                rw [hpd, ← haf]
                simp only [Finset.mem_union, List.mem_toFinset]
                exact Or.inr (List.mem_map.mpr ⟨a, ha, rfl⟩)
        next hsrv => simp at hsp
    next heq => simp at hsp
  next hdoc => simp at hsp

/-- Completed resolver tables are closed: the stripped form of every
documentation-type field value is itself a key of the table. -/
lemma resolved_specs_closed {env : Env} {seeds : Finset String} {st : RState}
    (h : Resolves env (initState seeds) st) (hdone : st.depends = ∅) :
    ∀ p ∈ st.specs, ∀ q ∈ p.2, ∀ f ∈ q.2,
      is_documentation_msg (strip_array_suffix f.2) = true →
      strip_array_suffix f.2 ∈ keysOf st.specs := by
  obtain ⟨n, hn⟩ := h
  have hinv := resolver_inv_run hn
  intro p hp q hq f hf hdocs
  obtain ⟨raw, hraw, hmemPD⟩ := spec_field_pureDeps (hinv.entries_pure p hp) hq hf
  have hkey : (st.specs.lookup p.1).isSome :=
    (lookup_isSome_iff _ _).mpr (List.mem_map.mpr ⟨p, hp, rfl⟩)
  have hpvis : p.1 ∈ st.visited := ((hinv.keys_vis p.1).mp hkey).1
  have hsvis : strip_array_suffix f.2 ∈ st.visited := by
    rcases hinv.vis_closed p.1 hpvis _ hmemPD with hx | hx
    · rw [hdone] at hx
      exact absurd hx (Finset.not_mem_empty _)
    · exact hx
  have hpure : pureSpec env (strip_array_suffix f.2) ≠ none := by
    intro hnone
    obtain ⟨pkg, ext, ms, hsplit3, hne1, _⟩ := hinv.vis_doc _ hsvis hdocs hnone
    rw [hraw] at hsplit3
    rcases strip_normalize_shape raw with ⟨p', hp'⟩ | ⟨p', q', hpq⟩
    · rw [hp'] at hsplit3
      simp at hsplit3
    · rw [hpq] at hsplit3
      simp at hsplit3
      exact hne1 hsplit3.2.1.symm
  exact (lookup_isSome_iff _ _).mp ((hinv.keys_vis _).mpr ⟨hsvis, hpure⟩)

/-! ## Dependency-graph lemmas -/

lemma lookup_map_insertVal (m : GraphMap) (k v x : String) :
    (m.map (fun e => if e.1 = k then (e.1, insert v e.2) else e)).lookup x
      = (m.lookup x).map (fun s => if x = k then insert v s else s) := by
  induction m with
  | nil => simp
  | cons e m ih =>
    obtain ⟨a, b⟩ := e
    simp only [List.map_cons]
    by_cases hak : a = k
    · subst hak
      by_cases hxa : x = a
      · subst hxa
        simp [List.lookup_cons]
      · simp only [eq_self_iff_true, if_true, List.lookup_cons, beq_false_of_ne hxa]
        exact ih
    · by_cases hxa : x = a
      · subst hxa
        simp [if_neg hak, List.lookup_cons, hak]
      · simp only [if_neg hak, List.lookup_cons, beq_false_of_ne hxa]
        exact ih

lemma addToGraph_ok {m : GraphMap} {k : String} (v : String)
    (h : k ∈ m.map Prod.fst) :
    ∃ m', addToGraph m k v = .ok m' ∧ m'.map Prod.fst = m.map Prod.fst ∧
      ∀ x, lookupSet m' x
        = if x = k then insert v (lookupSet m x) else lookupSet m x := by
  have hs : (m.lookup k).isSome := (lookup_isSome_iff _ _).mpr h
  refine ⟨m.map (fun e => if e.1 = k then (e.1, insert v e.2) else e), ?_, ?_, ?_⟩
  · unfold addToGraph
    rw [if_pos hs]
  · rw [List.map_map]
    apply List.map_congr_left
    intro e _
    by_cases hek : e.1 = k <;> simp [hek, Function.comp_def]
  · intro x
    unfold lookupSet
    rw [lookup_map_insertVal]
    by_cases hxk : x = k
    · subst hxk
      obtain ⟨s, hsx⟩ := Option.isSome_iff_exists.mp hs
      simp [hsx]
    · cases hx : m.lookup x <;> simp [hx, hxk]

lemma initGraph_keys (specs : SpecTable) :
    (initGraph specs).map Prod.fst = keysOf specs := by
  unfold initGraph keysOf
  rw [List.map_map]
  apply List.map_congr_left
  intro p _
  simp [Function.comp_def]

lemma lookupSet_initGraph (specs : SpecTable) (a : String) :
    lookupSet (initGraph specs) a = ∅ := by
  unfold lookupSet initGraph
  induction specs with
  | nil => simp
  | cons p t ih =>
    simp only [List.map_cons]
    by_cases hp : a = p.1
    · simp [List.lookup_cons, hp]
    · simp only [List.lookup_cons, beq_false_of_ne hp]
      exact ih

/-- The dependency-graph fold succeeds on well-scoped events and
maintains the transpose relation between `type_uses` and `type_used`. -/
lemma graph_fold (specs : SpecTable) :
    ∀ evs : List (String × String),
      (∀ ev ∈ evs, ev.1 ∈ keysOf specs ∧
        (is_documentation_msg (strip_array_suffix ev.2) = true →
          strip_array_suffix ev.2 ∈ keysOf specs)) →
      ∀ g : GraphMap × GraphMap,
        g.1.map Prod.fst = keysOf specs → g.2.map Prod.fst = keysOf specs →
        (∀ a b, b ∈ lookupSet g.1 a ↔ a ∈ lookupSet g.2 b) →
        ∃ g', evs.foldlM graphStep g = .ok g' ∧
          g'.1.map Prod.fst = keysOf specs ∧
          g'.2.map Prod.fst = keysOf specs ∧
          (∀ a b, b ∈ lookupSet g'.1 a ↔ a ∈ lookupSet g'.2 b) := by
  intro evs
  induction evs with
  | nil =>
    intro _ g h1 h2 h3
    exact ⟨g, rfl, h1, h2, h3⟩
  | cons ev evs ih =>
    intro hP g h1 h2 h3
    have hev := hP ev (List.mem_cons_self _ _)
    by_cases hdoc : is_documentation_msg (strip_array_suffix ev.2) = true
    · have hm1mem : ev.1 ∈ g.1.map Prod.fst := by
        rw [h1]
        exact hev.1
      have hm2mem : strip_array_suffix ev.2 ∈ g.2.map Prod.fst := by
        rw [h2]
        exact hev.2 hdoc
      obtain ⟨m1, hm1, hk1, hl1⟩ := addToGraph_ok (strip_array_suffix ev.2) hm1mem
      obtain ⟨m2, hm2, hk2, hl2⟩ := addToGraph_ok ev.1 hm2mem
      have hstep : graphStep g ev = .ok (m1, m2) := by
        unfold graphStep
        rw [if_pos hdoc]
        rw [show addToGraph g.1 ev.1 (strip_array_suffix ev.2) = .ok m1 from hm1,
            show addToGraph g.2 (strip_array_suffix ev.2) ev.1 = .ok m2 from hm2]
        rfl
      have hiff : ∀ a b, b ∈ lookupSet m1 a ↔ a ∈ lookupSet m2 b := by
        intro a b
        rw [hl1 a, hl2 b]
        by_cases hae : a = ev.1
        · by_cases hbe : b = strip_array_suffix ev.2
          · subst hae
            subst hbe
            simp
          · subst hae
            rw [if_pos rfl, if_neg hbe, Finset.mem_insert]
            constructor
            · intro hb
              rcases hb with hb | hb
              · exact absurd hb hbe
              · exact (h3 _ b).mp hb
            · intro ha
              exact Or.inr ((h3 _ b).mpr ha)
        · by_cases hbe : b = strip_array_suffix ev.2
          · subst hbe
            rw [if_neg hae, if_pos rfl, Finset.mem_insert]
            constructor
            · intro hb
              exact Or.inr ((h3 a _).mp hb)
            · intro ha
              rcases ha with ha | ha
              · exact absurd ha hae
              · exact (h3 a _).mpr ha
          · rw [if_neg hae, if_neg hbe]
            exact h3 a b
      obtain ⟨g', hg', hg1, hg2, hg3⟩ :=
        ih (fun e he => hP e (List.mem_cons_of_mem _ he)) (m1, m2)
          (hk1.trans h1) (hk2.trans h2) hiff
      refine ⟨g', ?_, hg1, hg2, hg3⟩
      rw [List.foldlM_cons, hstep]
      exact hg'
    · have hstep : graphStep g ev = .ok g := by
        unfold graphStep
        rw [if_neg hdoc]
        rfl
      obtain ⟨g', hg', hg1, hg2, hg3⟩ :=
        ih (fun e he => hP e (List.mem_cons_of_mem _ he)) g h1 h2 h3
      refine ⟨g', ?_, hg1, hg2, hg3⟩
      rw [List.foldlM_cons, hstep]
      exact hg'

/-! ## C1: `usedBy` is the transpose of `uses` -/

/-- **C1**: for every resolved table produced by a completed resolver
run, the dependency-graph computation succeeds, both `type_uses` and
`type_used` have exactly the table's keys as their key set, and for all
keys `a` and `b` of the table, `b ∈ uses[a]` iff `a ∈ usedBy[b]`. -/
theorem usedBy_transpose_of_uses (env : Env) (seeds : Finset String)
    (st : RState) (h : Resolves env (initState seeds) st)
    (hdone : st.depends = ∅) :
    ∃ g : GraphMap × GraphMap, computeGraph st.specs = .ok g ∧
      g.1.map Prod.fst = keysOf st.specs ∧
      g.2.map Prod.fst = keysOf st.specs ∧
      ∀ a ∈ keysOf st.specs, ∀ b ∈ keysOf st.specs,
        (b ∈ lookupSet g.1 a ↔ a ∈ lookupSet g.2 b) := by
  have hclosed := resolved_specs_closed h hdone
  have hP : ∀ ev ∈ graphEvents st.specs, ev.1 ∈ keysOf st.specs ∧
      (is_documentation_msg (strip_array_suffix ev.2) = true →
        strip_array_suffix ev.2 ∈ keysOf st.specs) := by
    intro ev hev
    unfold graphEvents at hev
    obtain ⟨p, hp, hev2⟩ := List.mem_flatMap.mp hev
    obtain ⟨q, hq, hev3⟩ := List.mem_flatMap.mp hev2
    obtain ⟨f, hf, hev4⟩ := List.mem_map.mp hev3
    constructor
    · rw [← hev4]
      exact List.mem_map.mpr ⟨p, hp, rfl⟩
    · intro hdoc
      rw [← hev4] at hdoc ⊢
      exact hclosed p hp q hq f hf hdoc
  obtain ⟨g, hg, h1, h2, h3⟩ := graph_fold st.specs (graphEvents st.specs) hP
    (initGraph st.specs, initGraph st.specs) (initGraph_keys _) (initGraph_keys _)
    (by intro a b; simp [lookupSet_initGraph])
  exact ⟨g, hg, h1, h2, fun a _ b _ => h3 a b⟩

/-- **C1** witness: on the concrete completed run, the graph computation
succeeds with the single documented type carrying empty `uses` and
`used` sets, whose key lists both equal the table's key list. -/
theorem usedBy_transpose_of_uses_witness :
    computeGraph stB.specs = .ok gB0 ∧
    gB0.1.map Prod.fst = keysOf stB.specs ∧
    gB0.2.map Prod.fst = keysOf stB.specs := by
  obtain ⟨g, hg, h1, h2, _⟩ :=
    usedBy_transpose_of_uses env0 seeds0 stB ⟨2, run0⟩ rfl
  have hgB : g = gB0 := by
    have hdec : computeGraph stB.specs = .ok gB0 := by decide
    exact Except.ok.inj (hg.symm.trans hdec)
  subst hgB
  exact ⟨hg, h1, h2⟩

/-! ## C10: the clean-up step is directory-only -/

/-- **C10**: the clean-up loop over the type-pages output root removes
exactly the directory entries: an entry remains iff it was present and is
not a directory (so every regular file directly under the root, such as
the type index page, is kept, unchanged and in order). -/
theorem cleanup_removes_only_directories (entries : List FsEntry) :
    (∀ e, e ∈ cleanupTypePages entries ↔ e ∈ entries ∧ e.isDir = false) ∧
    (cleanupTypePages entries).Sublist entries := by
  constructor
  · intro e
    simp [cleanupTypePages]
  · exact List.filter_sublist entries

end Autoware
